import Mathlib

/-!
Verification of the CampusNavi pathfinding engine specification.

The repository ships the Streamlit front end (`app.py`) and the assistant
glue (`gemini_integration.py`); the core engine (`CampusPathfinder` in
`pathfinding.py`) is referenced by both but its source is not part of the
repository snapshot.  The engine is therefore modelled from the
specification: a weighted graph with non-negative rational edge weights,
the four search strategies (BFS, DFS, UCS, A* with a pluggable heuristic),
route metrics, the comparison harness, and the POI resolver.  The two
shipped Python files are embedded directly.
-/

namespace CampusNavi

/-- Modelled from the spec (§3, pathfinding.py is absent from the snapshot):
a weighted graph with `n` nodes identified by naturals below `n`, and an
adjacency map giving `(neighbor, edge weight)` pairs.  Weights are kept as
exact rationals standing for the floating-point meters of the code. -/
structure Graph where
  n : Nat
  adj : Nat → List (Nat × ℚ)

/-- Modelled from the spec (§3): the invariants the Map Graph Builder
guarantees — every listed neighbor is a valid node, weights are
non-negative, and each adjacency list names each neighbor at most once
(adjacency comes from a dictionary in the builder). -/
def WellFormed (g : Graph) : Prop :=
  ∀ u ∈ List.range g.n,
    (∀ p ∈ g.adj u, p.1 < g.n ∧ 0 ≤ p.2) ∧ ((g.adj u).map Prod.fst).Nodup

instance (g : Graph) : Decidable (WellFormed g) := by
  unfold WellFormed; infer_instance

/-- First weight recorded in `l` for neighbor `v`. -/
def lookWeight : List (Nat × ℚ) → Nat → Option ℚ
  | [], _ => none
  | (x, w) :: rest, v => if x = v then some w else lookWeight rest v

/-- Weight of the edge from `u` to `v`, as the search and the metrics both
read it from the adjacency structure. -/
def edgeW (g : Graph) (u v : Nat) : Option ℚ :=
  lookWeight (g.adj u) v

/-- Modelled from the spec (§4.4): the total distance of a route is the sum
of the weights of the edges traversed along it; `none` when a consecutive
pair is not an edge.  A single node is a zero-length route of distance 0. -/
def routeCost (g : Graph) : List Nat → Option ℚ
  | [] => none
  | [_] => some 0
  | u :: v :: rest =>
    match edgeW g u v, routeCost g (v :: rest) with
    | some w, some c => some (w + c)
    | _, _ => none

/-- A path from `a` to `b` in `g` of total weight `c`: the mathematical
specification every route returned by a search must satisfy, and the
yardstick for optimality. -/
inductive PathFrom (g : Graph) : Nat → Nat → ℚ → Prop
  | nil (u : Nat) : PathFrom g u u 0
  | cons {u v b : Nat} {w c : ℚ} :
      (v, w) ∈ g.adj u → PathFrom g v b c → PathFrom g u b (w + c)

theorem lookWeight_mem {l : List (Nat × ℚ)} {v : Nat} {w : ℚ}
    (h : lookWeight l v = some w) : (v, w) ∈ l := by
  induction l with
  | nil => simp [lookWeight] at h
  | cons p rest ih =>
    obtain ⟨x, wx⟩ := p
    by_cases hx : x = v
    · subst hx
      simp [lookWeight] at h
      subst h
      exact List.mem_cons_self _ _
    · simp [lookWeight, hx] at h
      exact List.mem_cons_of_mem _ (ih h)

theorem lookWeight_of_mem_nodup {l : List (Nat × ℚ)} {v : Nat} {w : ℚ}
    (hnd : (l.map Prod.fst).Nodup) (hm : (v, w) ∈ l) :
    lookWeight l v = some w := by
  induction l with
  | nil => simp at hm
  | cons p rest ih =>
    obtain ⟨x, wx⟩ := p
    simp only [List.map_cons, List.nodup_cons] at hnd
    rcases List.mem_cons.mp hm with he | hm2
    · cases he
      simp [lookWeight]
    · have hxv : x ≠ v := by
        intro hxe
        subst hxe
        exact hnd.1 (List.mem_map.mpr ⟨(x, w), hm2, rfl⟩)
      simp [lookWeight, hxv]
      exact ih hnd.2 hm2

/-- Every list-route with a defined cost yields a `PathFrom` between its
endpoints with that cost. -/
theorem pathFrom_of_routeCost {g : Graph} :
    ∀ {p : List Nat} {c : ℚ} {a b : Nat}, routeCost g p = some c →
      p.head? = some a → p.getLast? = some b → PathFrom g a b c := by
  intro p
  induction p with
  | nil => intro c a b h; simp [routeCost] at h
  | cons u rest ih =>
    intro c a b h hh hl
    cases rest with
    | nil =>
      simp [routeCost] at h
      simp at hh hl
      subst hh; subst hl; subst h
      exact PathFrom.nil _
    | cons v rest2 =>
      simp only [routeCost] at h
      cases hw : edgeW g u v with
      | none => rw [hw] at h; simp at h
      | some w =>
        cases hc : routeCost g (v :: rest2) with
        | none => rw [hw, hc] at h; simp at h
        | some c2 =>
          rw [hw, hc] at h
          simp at h
          simp at hh
          subst hh
          have hl2 : (v :: rest2).getLast? = some b := by
            rw [List.getLast?_cons_cons] at hl
            exact hl
          have hp2 : PathFrom g v b c2 := ih hc rfl hl2
          rw [← h]
          exact PathFrom.cons (lookWeight_mem hw) hp2

/-- Extending a path by one edge at its endpoint. -/
theorem PathFrom.snoc {g : Graph} {a u v : Nat} {c w : ℚ}
    (hp : PathFrom g a u c) (he : (v, w) ∈ g.adj u) :
    PathFrom g a v (c + w) := by
  induction hp with
  | nil x => simpa using PathFrom.cons he (PathFrom.nil v)
  | cons hm _ ih =>
    rw [add_assoc]
    exact PathFrom.cons hm (ih he)

/-- Path costs are non-negative on a well-formed graph. -/
theorem pathFrom_nonneg {g : Graph} (hwf : WellFormed g) {a b : Nat} {c : ℚ}
    (ha : a < g.n) (hp : PathFrom g a b c) : 0 ≤ c := by
  induction hp with
  | nil => exact le_refl 0
  | @cons u v b w c2 hm hp2 ih =>
    have hu := hwf u (List.mem_range.mpr ha)
    have hw := (hu.1 _ hm)
    exact add_nonneg hw.2 (ih hw.1)

/-- Intermediate nodes of paths stay inside a well-formed graph. -/
theorem pathFrom_target_lt {g : Graph} (hwf : WellFormed g) {a b : Nat} {c : ℚ}
    (ha : a < g.n) (hp : PathFrom g a b c) : b < g.n := by
  induction hp with
  | nil => exact ha
  | @cons u v b w c2 hm hp2 ih =>
    have hu := hwf u (List.mem_range.mpr ha)
    exact ih (hu.1 _ hm).1

/-- Modelled from the spec (§4.3): a frontier entry of a search — priority
key, cumulative cost from the start, current node, and the path taken so
far stored in reverse (current node first). -/
structure Entry where
  prio : ℚ
  cost : ℚ
  node : Nat
  path : List Nat
deriving DecidableEq

/-- Remove the first entry of minimal priority — a stable priority queue,
as the spec's tie-break rule requires (§4.3). -/
def popMin : List Entry → Option (Entry × List Entry)
  | [] => none
  | e :: es =>
    match popMin es with
    | none => some (e, [])
    | some (e2, es2) => if e.prio ≤ e2.prio then some (e, es) else some (e2, e :: es2)

/-- Remove the first entry — FIFO for BFS, and LIFO for DFS when pushes are
prepended. -/
def popHead : List Entry → Option (Entry × List Entry)
  | [] => none
  | e :: es => some (e, es)

/-- Modelled from the spec (§4.3, §9): a search strategy is a frontier
discipline — how an entry is selected and how new entries are merged. -/
structure Strategy where
  pick : List Entry → Option (Entry × List Entry)
  combine : List Entry → List Entry → List Entry

/-- The frontier discipline touches frontier contents only by selection and
merging. -/
structure LawfulStrategy (st : Strategy) : Prop where
  pick_none : ∀ l, st.pick l = none → l = []
  pick_perm : ∀ l e rest, st.pick l = some (e, rest) → l.Perm (e :: rest)
  combine_perm : ∀ a b, (st.combine a b).Perm (a ++ b)

theorem popMin_none : ∀ l, popMin l = none → l = [] := by
  intro l h
  cases l with
  | nil => rfl
  | cons e es =>
    simp only [popMin] at h
    cases hm : popMin es with
    | none => rw [hm] at h; simp at h
    | some pr =>
      rw [hm] at h
      obtain ⟨e2, es2⟩ := pr
      by_cases hle : e.prio ≤ e2.prio <;> simp [hle] at h

theorem popMin_perm : ∀ l e rest, popMin l = some (e, rest) → l.Perm (e :: rest) := by
  intro l
  induction l with
  | nil => intro e rest h; simp [popMin] at h
  | cons x xs ih =>
    intro e rest h
    simp only [popMin] at h
    cases hm : popMin xs with
    | none =>
      rw [hm] at h
      simp at h
      have hxs : xs = [] := popMin_none xs hm
      subst hxs
      rw [h.1, h.2]
    | some pr =>
      obtain ⟨e2, es2⟩ := pr
      rw [hm] at h
      have hperm : xs.Perm (e2 :: es2) := ih e2 es2 hm
      by_cases hle : x.prio ≤ e2.prio
      · simp [hle] at h
        rw [← h.1, ← h.2]
      · simp [hle] at h
        rw [← h.1, ← h.2]
        exact (hperm.cons x).trans (List.Perm.swap e2 x es2)

theorem popMin_min : ∀ l e rest, popMin l = some (e, rest) →
    ∀ x ∈ l, e.prio ≤ x.prio := by
  intro l
  induction l with
  | nil => intro e rest h; simp [popMin] at h
  | cons y ys ih =>
    intro e rest h x hx
    simp only [popMin] at h
    cases hm : popMin ys with
    | none =>
      rw [hm] at h
      simp at h
      have hys : ys = [] := popMin_none ys hm
      subst hys
      simp at hx
      subst hx
      rw [h.1]
    | some pr =>
      obtain ⟨e2, es2⟩ := pr
      rw [hm] at h
      rcases List.mem_cons.mp hx with hxy | hxys
      · subst hxy
        by_cases hle : x.prio ≤ e2.prio <;> simp [hle] at h
        · rw [h.1]
        · rw [← h.1]; exact le_of_lt (lt_of_not_le hle)
      · have h2 := ih e2 es2 hm x hxys
        by_cases hle : y.prio ≤ e2.prio <;> simp [hle] at h
        · rw [← h.1]; exact le_trans hle h2
        · rw [← h.1]; exact h2

/-- BFS strategy: FIFO frontier, weights ignored (Modelled from the spec §4.3). -/
def stratBFS : Strategy := ⟨popHead, fun front pushes => front ++ pushes⟩

/-- DFS strategy: explicit stack with a visited set (Modelled from the spec §4.3). -/
def stratDFS : Strategy := ⟨popHead, fun front pushes => pushes ++ front⟩

/-- Priority strategy shared by UCS and A*: stable minimal-priority
selection (Modelled from the spec §4.3). -/
def stratBest : Strategy := ⟨popMin, fun front pushes => front ++ pushes⟩

theorem lawful_popHead_append : LawfulStrategy ⟨popHead, fun front pushes => front ++ pushes⟩ := by
  refine ⟨?_, ?_, ?_⟩
  · intro l h
    cases l with
    | nil => rfl
    | cons e es => simp [popHead] at h
  · intro l e rest h
    cases l with
    | nil => simp [popHead] at h
    | cons x xs =>
      simp [popHead] at h
      rw [h.1, h.2]
  · intro a b
    exact List.Perm.refl _

theorem lawful_stratBFS : LawfulStrategy stratBFS := lawful_popHead_append

theorem lawful_stratDFS : LawfulStrategy stratDFS := by
  refine ⟨lawful_popHead_append.pick_none, lawful_popHead_append.pick_perm, ?_⟩
  intro a b
  exact List.perm_append_comm

theorem lawful_stratBest : LawfulStrategy stratBest :=
  ⟨popMin_none, popMin_perm, fun _ _ => List.Perm.refl _⟩

/-- Has node `v` already been settled? -/
def isSettled (visited : List (Nat × ℚ)) (v : Nat) : Bool :=
  visited.any (fun q => q.1 = v)

theorem isSettled_iff (visited : List (Nat × ℚ)) (v : Nat) :
    isSettled visited v = true ↔ ∃ q ∈ visited, q.1 = v := by
  simp [isSettled]

/-- Successor entries of a settled node: one entry per not-yet-settled
neighbor, in adjacency order, with cumulative cost extended by the edge
weight and priority recomputed through the heuristic. -/
def pushEntries (gr : Graph) (h : Nat → ℚ) (visited : List (Nat × ℚ)) (e : Entry) :
    List Entry :=
  ((gr.adj e.node).filter (fun p => !(isSettled visited p.1))).map
    (fun p => ⟨e.cost + p.2 + h p.1, e.cost + p.2, p.1, p.1 :: e.path⟩)

/-- Modelled from the spec (§4.3): the common search loop.  Entries are
taken from the frontier by the strategy; stale entries (already settled)
are discarded; settling the end node returns the route and its cumulative
cost; otherwise the node's successors join the frontier.  The exploration
count is the number of nodes settled.  Fuel makes the recursion
structural; `searchFuel` below always suffices. -/
def searchLoop (gr : Graph) (h : Nat → ℚ) (st : Strategy) (t : Nat) :
    Nat → List (Nat × ℚ) → List Entry → Nat → Option (List Nat × ℚ) × Nat
  | 0, _, _, count => (none, count)
  | fuel + 1, visited, frontier, count =>
    match st.pick frontier with
    | none => (none, count)
    | some (e, rest) =>
      if isSettled visited e.node then
        searchLoop gr h st t fuel visited rest count
      else if e.node = t then
        (some (e.path.reverse, e.cost), count + 1)
      else
        searchLoop gr h st t fuel ((e.node, e.cost) :: visited)
          (st.combine rest (pushEntries gr h ((e.node, e.cost) :: visited) e)) (count + 1)

/-- Total number of adjacency records of the graph. -/
def totalDeg (gr : Graph) : Nat :=
  ((List.range gr.n).map (fun v => (gr.adj v).length)).sum

/-- Fuel that always suffices for the search loop to run to completion. -/
def searchFuel (gr : Graph) : Nat := (gr.n + 1) * (totalDeg gr + 1) + 2

/-- Run a search strategy from `s` to `t`: route with its total cost (or
`none` when no path is found) together with the nodes-explored count. -/
def runSearch (gr : Graph) (h : Nat → ℚ) (st : Strategy) (s t : Nat) :
    Option (List Nat × ℚ) × Nat :=
  searchLoop gr h st t (searchFuel gr) [] [⟨h s, 0, s, [s]⟩] 0

/-- Modelled from the spec (§4.3): BFS. -/
def bfsRun (gr : Graph) (s t : Nat) : Option (List Nat × ℚ) × Nat :=
  runSearch gr (fun _ => 0) stratBFS s t

/-- Modelled from the spec (§4.3): DFS. -/
def dfsRun (gr : Graph) (s t : Nat) : Option (List Nat × ℚ) × Nat :=
  runSearch gr (fun _ => 0) stratDFS s t

/-- Modelled from the spec (§4.3): A* with heuristic `h`. -/
def astarRun (gr : Graph) (h : Nat → ℚ) (s t : Nat) : Option (List Nat × ℚ) × Nat :=
  runSearch gr h stratBest s t

/-- Modelled from the spec (§4.3): UCS is the priority search with no
heuristic. -/
def ucsRun (gr : Graph) (s t : Nat) : Option (List Nat × ℚ) × Nat :=
  astarRun gr (fun _ => 0) s t

/-- Modelled from the spec (§4.3 A*): the heuristic never overestimates the
weight of any edge step — the edge-wise never-overestimate guarantee the
spec demands of the chosen heuristics. -/
def Consistent (gr : Graph) (h : Nat → ℚ) : Prop :=
  ∀ u ∈ List.range gr.n, ∀ p ∈ gr.adj u, h u ≤ p.2 + h p.1

instance (gr : Graph) (h : Nat → ℚ) : Decidable (Consistent gr h) := by
  unfold Consistent; infer_instance

theorem head?_append_left {α : Type} {l l2 : List α} {a : α}
    (hl : l.head? = some a) : (l ++ l2).head? = some a := by
  cases l with
  | nil => simp at hl
  | cons x xs => simpa using hl

theorem routeCost_snoc {gr : Graph} :
    ∀ {p : List Nat} {c : ℚ} {u v : Nat} {w : ℚ},
      routeCost gr p = some c → p.getLast? = some u → edgeW gr u v = some w →
      routeCost gr (p ++ [v]) = some (c + w) := by
  intro p
  induction p with
  | nil => intro c u v w hc; simp [routeCost] at hc
  | cons x rest ih =>
    intro c u v w hc hl hw
    cases rest with
    | nil =>
      simp [routeCost] at hc
      simp at hl
      subst hl; subst hc
      simp [routeCost, hw]
    | cons y rest2 =>
      simp only [routeCost] at hc
      cases hw1 : edgeW gr x y with
      | none => rw [hw1] at hc; simp at hc
      | some w1 =>
        cases hc1 : routeCost gr (y :: rest2) with
        | none => rw [hw1, hc1] at hc; simp at hc
        | some c1 =>
          rw [hw1, hc1] at hc
          simp at hc
          have hl2 : (y :: rest2).getLast? = some u := by
            rw [List.getLast?_cons_cons] at hl; exact hl
          have ih2 := ih hc1 hl2 hw
          rw [show (x :: y :: rest2) ++ [v] = x :: y :: (rest2 ++ [v]) by simp]
          rw [List.cons_append] at ih2
          simp only [routeCost, hw1, ih2]
          rw [← hc, add_assoc]

theorem deg_le_totalDeg (gr : Graph) {v : Nat} (hv : v < gr.n) :
    (gr.adj v).length ≤ totalDeg gr := by
  unfold totalDeg
  refine List.single_le_sum (fun x _ => Nat.zero_le x) _ ?_
  exact List.mem_map.mpr ⟨v, List.mem_range.mpr hv, rfl⟩

theorem visited_length_le {visited : List (Nat × ℚ)} {n : Nat}
    (hnd : (visited.map Prod.fst).Nodup) (hlt : ∀ q ∈ visited, q.1 < n) :
    visited.length ≤ n := by
  have hsub : (visited.map Prod.fst) ⊆ List.range n := by
    intro x hx
    obtain ⟨q, hq, hfst⟩ := List.mem_map.mp hx
    exact List.mem_range.mpr (hfst ▸ hlt q hq)
  have hle := (hnd.subperm hsub).length_le
  simpa using hle

theorem isSettled_eq_false {visited : List (Nat × ℚ)} {v : Nat} :
    isSettled visited v = false ↔ ∀ q ∈ visited, q.1 ≠ v := by
  simp [isSettled]

/-- Invariant of the search loop common to every strategy: the settled list
is duplicate-free over valid non-goal nodes, each settled pair records the
cost of an actual route, every frontier entry records an actual route from
the start ending at its node with its cumulative cost and a priority of
cost plus heuristic, and the exploration count equals the number of
settled nodes. -/
structure SInv (gr : Graph) (h : Nat → ℚ) (s t : Nat)
    (visited : List (Nat × ℚ)) (frontier : List Entry) (count : Nat) : Prop where
  vnodup : (visited.map Prod.fst).Nodup
  vlt : ∀ q ∈ visited, q.1 < gr.n
  tfree : ∀ q ∈ visited, q.1 ≠ t
  vcost : ∀ q ∈ visited, PathFrom gr s q.1 q.2
  fpath : ∀ e ∈ frontier, e.node < gr.n ∧ e.prio = e.cost + h e.node ∧
    e.path.head? = some e.node ∧ e.path.reverse.head? = some s ∧
    routeCost gr e.path.reverse = some e.cost
  ccount : count = visited.length

/-- Additional invariant of the priority strategy: settled costs are
optimal, the start is settled or on the frontier at cost zero, and every
edge out of a settled node is either settled or covered by a frontier
entry within the settled cost plus the edge weight. -/
structure OInv (gr : Graph) (s : Nat)
    (visited : List (Nat × ℚ)) (frontier : List Entry) : Prop where
  vopt : ∀ q ∈ visited, ∀ c, PathFrom gr s q.1 c → q.2 ≤ c
  fstart : (∃ q ∈ visited, q.1 = s) ∨ ∃ e ∈ frontier, e.node = s ∧ e.cost ≤ 0
  fedge : ∀ q ∈ visited, ∀ p ∈ gr.adj q.1,
    (∃ q2 ∈ visited, q2.1 = p.1) ∨ ∃ e ∈ frontier, e.node = p.1 ∧ e.cost ≤ q.2 + p.2

theorem PathFrom_of_entry {gr : Graph} {h : Nat → ℚ} {s t : Nat}
    {visited : List (Nat × ℚ)} {frontier : List Entry} {count : Nat}
    (hS : SInv gr h s t visited frontier count) {e : Entry} (he : e ∈ frontier) :
    PathFrom gr s e.node e.cost := by
  obtain ⟨_, _, hhd, hrev, hrc⟩ := hS.fpath e he
  refine pathFrom_of_routeCost hrc hrev ?_
  rw [List.getLast?_reverse]
  exact hhd

theorem SInv_stale {gr : Graph} {h : Nat → ℚ} {st : Strategy} {s t : Nat}
    {visited : List (Nat × ℚ)} {frontier rest : List Entry} {count : Nat} {e : Entry}
    (hlaw : LawfulStrategy st) (hpick : st.pick frontier = some (e, rest))
    (hS : SInv gr h s t visited frontier count) :
    SInv gr h s t visited rest count := by
  refine ⟨hS.vnodup, hS.vlt, hS.tfree, hS.vcost, ?_, hS.ccount⟩
  intro e2 he2
  have hperm := hlaw.pick_perm frontier e rest hpick
  exact hS.fpath e2 (hperm.mem_iff.mpr (List.mem_cons_of_mem e he2))

theorem SInv_settle {gr : Graph} {h : Nat → ℚ} {st : Strategy} {s t : Nat}
    {visited : List (Nat × ℚ)} {frontier rest : List Entry} {count : Nat} {e : Entry}
    (hwf : WellFormed gr) (hlaw : LawfulStrategy st)
    (hpick : st.pick frontier = some (e, rest))
    (hset : isSettled visited e.node = false) (hgoal : e.node ≠ t)
    (hS : SInv gr h s t visited frontier count) :
    SInv gr h s t ((e.node, e.cost) :: visited)
      (st.combine rest (pushEntries gr h ((e.node, e.cost) :: visited) e))
      (count + 1) := by
  have hperm := hlaw.pick_perm frontier e rest hpick
  have hein : e ∈ frontier := hperm.mem_iff.mpr (List.mem_cons_self e rest)
  obtain ⟨helt, heprio, hehd, herev, herc⟩ := hS.fpath e hein
  have hepath : PathFrom gr s e.node e.cost := PathFrom_of_entry hS hein
  refine ⟨?_, ?_, ?_, ?_, ?_, ?_⟩
  · simp only [List.map_cons, List.nodup_cons]
    refine ⟨?_, hS.vnodup⟩
    intro hmem
    obtain ⟨q, hq, hfst⟩ := List.mem_map.mp hmem
    exact (isSettled_eq_false.mp hset q hq) hfst
  · intro q hq
    rcases List.mem_cons.mp hq with hq1 | hq2
    · rw [hq1]; exact helt
    · exact hS.vlt q hq2
  · intro q hq
    rcases List.mem_cons.mp hq with hq1 | hq2
    · rw [hq1]; exact hgoal
    · exact hS.tfree q hq2
  · intro q hq
    rcases List.mem_cons.mp hq with hq1 | hq2
    · rw [hq1]; exact hepath
    · exact hS.vcost q hq2
  · intro e2 he2
    have hc := (hlaw.combine_perm rest (pushEntries gr h ((e.node, e.cost) :: visited) e)).mem_iff.mp he2
    rcases List.mem_append.mp hc with hrest | hpush
    · exact hS.fpath e2 (hperm.mem_iff.mpr (List.mem_cons_of_mem e hrest))
    · obtain ⟨p, hpmem, hpe⟩ := List.mem_map.mp hpush
      have hpadj : p ∈ gr.adj e.node := (List.mem_filter.mp hpmem).1
      have hwfe := (hwf e.node (List.mem_range.mpr helt)).1 p hpadj
      have hnd := (hwf e.node (List.mem_range.mpr helt)).2
      subst hpe
      refine ⟨hwfe.1, by ring, rfl, ?_, ?_⟩
      · simp only [List.reverse_cons]
        exact head?_append_left herev
      · simp only [List.reverse_cons]
        have hlast : e.path.reverse.getLast? = some e.node := by
          rw [List.getLast?_reverse]; exact hehd
        exact routeCost_snoc herc hlast (lookWeight_of_mem_nodup hnd hpadj)
  · simp [hS.ccount]

theorem OInv_stale {gr : Graph} {s : Nat}
    {visited : List (Nat × ℚ)} {frontier rest : List Entry} {e : Entry}
    (hpick : popMin frontier = some (e, rest))
    (hset : isSettled visited e.node = true)
    (hO : OInv gr s visited frontier) :
    OInv gr s visited rest := by
  have hperm := popMin_perm frontier e rest hpick
  refine ⟨hO.vopt, ?_, ?_⟩
  · rcases hO.fstart with hleft | ⟨e0, he0, hn0, hc0⟩
    · exact Or.inl hleft
    · rcases List.mem_cons.mp (hperm.mem_iff.mp he0) with he | hr
      · left
        obtain ⟨q, hq, hqn⟩ := isSettled_iff visited e.node |>.mp hset
        exact ⟨q, hq, by rw [hqn, ← he, hn0]⟩
      · exact Or.inr ⟨e0, hr, hn0, hc0⟩
  · intro q hq p hp
    rcases hO.fedge q hq p hp with hleft | ⟨e2, he2, hn2, hc2⟩
    · exact Or.inl hleft
    · rcases List.mem_cons.mp (hperm.mem_iff.mp he2) with he | hr
      · left
        obtain ⟨q2, hq2, hq2n⟩ := isSettled_iff visited e.node |>.mp hset
        exact ⟨q2, hq2, by rw [hq2n, ← he, hn2]⟩
      · exact Or.inr ⟨e2, hr, hn2, hc2⟩

theorem cover_from_settled {gr : Graph} {h : Nat → ℚ} {s t : Nat}
    {visited : List (Nat × ℚ)} {frontier : List Entry} {count : Nat}
    (hS : SInv gr h s t visited frontier count) (hO : OInv gr s visited frontier) :
    ∀ {u z : Nat} {ct : ℚ}, PathFrom gr u z ct → ∀ gu : ℚ, (u, gu) ∈ visited →
      isSettled visited z = false →
      ∃ e2 ∈ frontier, ∃ ct2, PathFrom gr e2.node z ct2 ∧ e2.cost + ct2 ≤ gu + ct := by
  intro u z ct hp
  induction hp with
  | nil u2 =>
    intro gu hmem hz
    exfalso
    have : isSettled visited u2 = true := isSettled_iff visited u2 |>.mpr ⟨(u2, gu), hmem, rfl⟩
    rw [hz] at this
    exact Bool.noConfusion this
  | @cons u v b w c hm hp2 ih =>
    intro gu hmem hz
    rcases hO.fedge (u, gu) hmem (v, w) hm with ⟨q2, hq2, hq2n⟩ | ⟨e2, he2, hn2, hc2⟩
    · obtain ⟨v2, gv⟩ := q2
      simp at hq2n
      rw [hq2n] at hq2
      have hsv : PathFrom gr s v (gu + w) := (hS.vcost (u, gu) hmem).snoc hm
      have hgv : gv ≤ gu + w := hO.vopt (v, gv) hq2 (gu + w) hsv
      rcases ih gv hq2 hz with ⟨e2, he2, ct2, hpt, hle⟩
      exact ⟨e2, he2, ct2, hpt, by linarith⟩
    · refine ⟨e2, he2, c, ?_, by linarith⟩
      rw [hn2]
      exact hp2

theorem cover {gr : Graph} {h : Nat → ℚ} {s t : Nat}
    {visited : List (Nat × ℚ)} {frontier : List Entry} {count : Nat}
    (hS : SInv gr h s t visited frontier count) (hO : OInv gr s visited frontier)
    {z : Nat} {c : ℚ} (hp : PathFrom gr s z c) (hz : isSettled visited z = false) :
    ∃ e2 ∈ frontier, ∃ ct, PathFrom gr e2.node z ct ∧ e2.cost + ct ≤ c := by
  rcases hO.fstart with ⟨q, hq, hqs⟩ | ⟨e0, he0, hn0, hc0⟩
  · obtain ⟨s2, gs⟩ := q
    simp at hqs
    rw [hqs] at hq
    have hgs : gs ≤ 0 := hO.vopt (s, gs) hq 0 (PathFrom.nil s)
    rcases cover_from_settled hS hO hp gs hq hz with ⟨e2, he2, ct2, hpt, hle⟩
    exact ⟨e2, he2, ct2, hpt, by linarith⟩
  · refine ⟨e0, he0, c, ?_, by linarith⟩
    rw [hn0]
    exact hp

theorem consistent_along {gr : Graph} {h : Nat → ℚ}
    (hwf : WellFormed gr) (hcons : Consistent gr h) :
    ∀ {a b : Nat} {c : ℚ}, PathFrom gr a b c → a < gr.n → h a ≤ c + h b := by
  intro a b c hp
  induction hp with
  | nil u => intro _; simp
  | @cons u v b w c hm hp2 ih =>
    intro hu
    have hv := (hwf u (List.mem_range.mpr hu)).1 (v, w) hm
    have h1 : h u ≤ w + h v := hcons u (List.mem_range.mpr hu) (v, w) hm
    have h2 : h v ≤ c + h b := ih hv.1
    linarith

/-- When the priority strategy settles a node, the recorded cumulative cost
is a lower bound of the cost of every path from the start to that node —
the heart of UCS/A* optimality under the edge-wise consistency guarantee. -/
theorem popped_min {gr : Graph} {h : Nat → ℚ} {s t : Nat}
    {visited : List (Nat × ℚ)} {frontier rest : List Entry} {count : Nat} {e : Entry}
    (hwf : WellFormed gr) (hcons : Consistent gr h)
    (hS : SInv gr h s t visited frontier count) (hO : OInv gr s visited frontier)
    (hpick : popMin frontier = some (e, rest))
    (hnew : isSettled visited e.node = false)
    {c : ℚ} (hp : PathFrom gr s e.node c) : e.cost ≤ c := by
  rcases cover hS hO hp hnew with ⟨e2, he2, ct, hpt, hle⟩
  have hmin := popMin_min frontier e rest hpick e2 he2
  have hein : e ∈ frontier :=
    (popMin_perm frontier e rest hpick).mem_iff.mpr (List.mem_cons_self e rest)
  have hpe := (hS.fpath e hein).2.1
  have hpe2 := (hS.fpath e2 he2).2.1
  have he2n : e2.node < gr.n := (hS.fpath e2 he2).1
  have hca := consistent_along hwf hcons hpt he2n
  linarith

theorem OInv_settle {gr : Graph} {h : Nat → ℚ} {s t : Nat}
    {visited : List (Nat × ℚ)} {frontier rest : List Entry} {count : Nat} {e : Entry}
    (hwf : WellFormed gr) (hcons : Consistent gr h)
    (hS : SInv gr h s t visited frontier count) (hO : OInv gr s visited frontier)
    (hpick : popMin frontier = some (e, rest))
    (hnew : isSettled visited e.node = false) :
    OInv gr s ((e.node, e.cost) :: visited)
      (rest ++ pushEntries gr h ((e.node, e.cost) :: visited) e) := by
  have hperm := popMin_perm frontier e rest hpick
  refine ⟨?_, ?_, ?_⟩
  · intro q hq c hp
    rcases List.mem_cons.mp hq with hq1 | hq2
    · rw [hq1]
      rw [hq1] at hp
      exact popped_min hwf hcons hS hO hpick hnew hp
    · exact hO.vopt q hq2 c hp
  · rcases hO.fstart with ⟨q, hq, hqs⟩ | ⟨e0, he0, hn0, hc0⟩
    · exact Or.inl ⟨q, List.mem_cons_of_mem _ hq, hqs⟩
    · rcases List.mem_cons.mp (hperm.mem_iff.mp he0) with he | hr
      · left
        exact ⟨(e.node, e.cost), List.mem_cons_self _ _, by rw [← he, hn0]⟩
      · exact Or.inr ⟨e0, List.mem_append_left _ hr, hn0, hc0⟩
  · intro q hq p hp
    rcases List.mem_cons.mp hq with hq1 | hq2
    · subst hq1
      by_cases hset2 : isSettled ((e.node, e.cost) :: visited) p.1 = true
      · exact Or.inl (isSettled_iff _ _ |>.mp hset2)
      · right
        refine ⟨⟨e.cost + p.2 + h p.1, e.cost + p.2, p.1, p.1 :: e.path⟩, ?_, rfl, le_refl _⟩
        refine List.mem_append_right _ ?_
        refine List.mem_map.mpr ⟨p, ?_, rfl⟩
        refine List.mem_filter.mpr ⟨hp, ?_⟩
        simp only [Bool.not_eq_true] at hset2
        simp [hset2]
    · rcases hO.fedge q hq2 p hp with ⟨q2, hq2m, hq2n⟩ | ⟨e2, he2, hn2, hc2⟩
      · exact Or.inl ⟨q2, List.mem_cons_of_mem _ hq2m, hq2n⟩
      · rcases List.mem_cons.mp (hperm.mem_iff.mp he2) with he | hr
        · left
          exact ⟨(e.node, e.cost), List.mem_cons_self _ _, by rw [← he, hn2]⟩
        · exact Or.inr ⟨e2, List.mem_append_left _ hr, hn2, hc2⟩

theorem searchLoop_valid {gr : Graph} {h : Nat → ℚ} {st : Strategy} {s t : Nat}
    (hwf : WellFormed gr) (hlaw : LawfulStrategy st) :
    ∀ (fuel : Nat) (visited : List (Nat × ℚ)) (frontier : List Entry) (count : Nat)
      (p : List Nat) (c : ℚ) (cnt : Nat),
      SInv gr h s t visited frontier count →
      searchLoop gr h st t fuel visited frontier count = (some (p, c), cnt) →
      p.head? = some s ∧ p.getLast? = some t ∧ routeCost gr p = some c := by
  intro fuel
  induction fuel with
  | zero =>
    intro visited frontier count p c cnt hS heq
    simp [searchLoop] at heq
  | succ fuel ih =>
    intro visited frontier count p c cnt hS heq
    rw [searchLoop] at heq
    cases hpick : st.pick frontier with
    | none => rw [hpick] at heq; simp at heq
    | some pr =>
      obtain ⟨e, rest⟩ := pr
      rw [hpick] at heq
      dsimp only at heq
      by_cases hset : isSettled visited e.node = true
      · rw [if_pos hset] at heq
        exact ih visited rest count p c cnt (SInv_stale hlaw hpick hS) heq
      · rw [if_neg hset] at heq
        have hset2 : isSettled visited e.node = false := by simpa using hset
        by_cases hgoal : e.node = t
        · rw [if_pos hgoal] at heq
          simp at heq
          obtain ⟨⟨hp1, hc1⟩, hcnt⟩ := heq
          have hein : e ∈ frontier :=
            (hlaw.pick_perm _ _ _ hpick).mem_iff.mpr (List.mem_cons_self e rest)
          obtain ⟨helt, heprio, hehd, herev, herc⟩ := hS.fpath e hein
          subst hp1; subst hc1
          refine ⟨herev, ?_, herc⟩
          rw [List.getLast?_reverse, hehd, hgoal]
        · rw [if_neg hgoal] at heq
          exact ih _ _ _ p c cnt (SInv_settle hwf hlaw hpick hset2 hgoal hS) heq

theorem searchLoop_opt {gr : Graph} {h : Nat → ℚ} {s t : Nat}
    (hwf : WellFormed gr) (hcons : Consistent gr h) :
    ∀ (fuel : Nat) (visited : List (Nat × ℚ)) (frontier : List Entry) (count : Nat)
      (p : List Nat) (c : ℚ) (cnt : Nat),
      SInv gr h s t visited frontier count →
      OInv gr s visited frontier →
      searchLoop gr h stratBest t fuel visited frontier count = (some (p, c), cnt) →
      ∀ c2, PathFrom gr s t c2 → c ≤ c2 := by
  intro fuel
  induction fuel with
  | zero =>
    intro visited frontier count p c cnt hS hO heq
    simp [searchLoop] at heq
  | succ fuel ih =>
    intro visited frontier count p c cnt hS hO heq
    rw [searchLoop] at heq
    cases hpick : stratBest.pick frontier with
    | none => rw [hpick] at heq; simp at heq
    | some pr =>
      obtain ⟨e, rest⟩ := pr
      rw [hpick] at heq
      dsimp only at heq
      by_cases hset : isSettled visited e.node = true
      · rw [if_pos hset] at heq
        exact ih visited rest count p c cnt (SInv_stale lawful_stratBest hpick hS)
          (OInv_stale hpick hset hO) heq
      · rw [if_neg hset] at heq
        have hset2 : isSettled visited e.node = false := by simpa using hset
        by_cases hgoal : e.node = t
        · rw [if_pos hgoal] at heq
          simp at heq
          obtain ⟨⟨hp1, hc1⟩, hcnt⟩ := heq
          subst hc1
          intro c2 hp2
          rw [← hgoal] at hp2
          exact popped_min hwf hcons hS hO hpick hset2 hp2
        · rw [if_neg hgoal] at heq
          exact ih _ _ _ p c cnt (SInv_settle hwf lawful_stratBest hpick hset2 hgoal hS)
            (OInv_settle hwf hcons hS hO hpick hset2) heq

theorem searchLoop_count {gr : Graph} {h : Nat → ℚ} {st : Strategy} {s t : Nat}
    (hwf : WellFormed gr) (hlaw : LawfulStrategy st) :
    ∀ (fuel : Nat) (visited : List (Nat × ℚ)) (frontier : List Entry) (count : Nat),
      SInv gr h s t visited frontier count →
      (searchLoop gr h st t fuel visited frontier count).2 ≤ gr.n := by
  intro fuel
  induction fuel with
  | zero =>
    intro visited frontier count hS
    simp only [searchLoop]
    rw [hS.ccount]
    exact visited_length_le hS.vnodup hS.vlt
  | succ fuel ih =>
    intro visited frontier count hS
    rw [searchLoop]
    cases hpick : st.pick frontier with
    | none =>
      simp only
      rw [hS.ccount]
      exact visited_length_le hS.vnodup hS.vlt
    | some pr =>
      obtain ⟨e, rest⟩ := pr
      dsimp only
      by_cases hset : isSettled visited e.node = true
      · rw [if_pos hset]
        exact ih visited rest count (SInv_stale hlaw hpick hS)
      · rw [if_neg hset]
        have hset2 : isSettled visited e.node = false := by simpa using hset
        have hein : e ∈ frontier :=
          (hlaw.pick_perm _ _ _ hpick).mem_iff.mpr (List.mem_cons_self e rest)
        have helt : e.node < gr.n := (hS.fpath e hein).1
        by_cases hgoal : e.node = t
        · rw [if_pos hgoal]
          simp only
          have hnd : (((e.node, e.cost) :: visited).map Prod.fst).Nodup := by
            simp only [List.map_cons, List.nodup_cons]
            refine ⟨?_, hS.vnodup⟩
            intro hmem
            obtain ⟨q, hq, hfst⟩ := List.mem_map.mp hmem
            exact (isSettled_eq_false.mp hset2 q hq) hfst
          have hlt : ∀ q ∈ (e.node, e.cost) :: visited, q.1 < gr.n := by
            intro q hq
            rcases List.mem_cons.mp hq with hq1 | hq2
            · rw [hq1]; exact helt
            · exact hS.vlt q hq2
          have := visited_length_le hnd hlt
          simp only [List.length_cons] at this
          rw [hS.ccount]
          exact this
        · rw [if_neg hgoal]
          exact ih _ _ _ (SInv_settle hwf hlaw hpick hset2 hgoal hS)

/-- Termination measure of the search loop. -/
def measureS (gr : Graph) (visited : List (Nat × ℚ)) (frontier : List Entry) : Nat :=
  (gr.n + 1 - visited.length) * (totalDeg gr + 1) + frontier.length + 1

theorem searchLoop_complete {gr : Graph} {h : Nat → ℚ} {s t : Nat}
    (hwf : WellFormed gr) (hcons : Consistent gr h) :
    ∀ (fuel : Nat) (visited : List (Nat × ℚ)) (frontier : List Entry) (count : Nat),
      SInv gr h s t visited frontier count →
      OInv gr s visited frontier →
      (∃ c, PathFrom gr s t c) →
      measureS gr visited frontier ≤ fuel →
      ((searchLoop gr h stratBest t fuel visited frontier count).1).isSome := by
  intro fuel
  induction fuel with
  | zero =>
    intro visited frontier count hS hO hex hfuel
    unfold measureS at hfuel
    omega
  | succ fuel ih =>
    intro visited frontier count hS hO hex hfuel
    rw [searchLoop]
    cases hpick : stratBest.pick frontier with
    | none =>
      exfalso
      have hfr : frontier = [] := popMin_none frontier hpick
      obtain ⟨c, hp⟩ := hex
      have ht : isSettled visited t = false := by
        cases hb : isSettled visited t
        · rfl
        · obtain ⟨q, hq, hqt⟩ := isSettled_iff visited t |>.mp hb
          exact absurd hqt (hS.tfree q hq)
      rcases cover hS hO hp ht with ⟨e2, he2, _⟩
      rw [hfr] at he2
      simp at he2
    | some pr =>
      obtain ⟨e, rest⟩ := pr
      dsimp only
      have hfl : frontier.length = rest.length + 1 := by
        have := (popMin_perm frontier e rest hpick).length_eq
        simpa using this
      by_cases hset : isSettled visited e.node = true
      · rw [if_pos hset]
        refine ih visited rest count (SInv_stale lawful_stratBest hpick hS)
          (OInv_stale hpick hset hO) hex ?_
        unfold measureS at hfuel ⊢
        omega
      · rw [if_neg hset]
        have hset2 : isSettled visited e.node = false := by simpa using hset
        have hein : e ∈ frontier :=
          (popMin_perm frontier e rest hpick).mem_iff.mpr (List.mem_cons_self e rest)
        have helt : e.node < gr.n := (hS.fpath e hein).1
        by_cases hgoal : e.node = t
        · rw [if_pos hgoal]
          simp
        · rw [if_neg hgoal]
          refine ih _ _ _ (SInv_settle hwf lawful_stratBest hpick hset2 hgoal hS)
            (OInv_settle hwf hcons hS hO hpick hset2) hex ?_
          have hvl : visited.length ≤ gr.n := visited_length_le hS.vnodup hS.vlt
          have hpl : (pushEntries gr h ((e.node, e.cost) :: visited) e).length ≤ totalDeg gr := by
            unfold pushEntries
            rw [List.length_map]
            exact le_trans (List.length_filter_le _ _) (deg_le_totalDeg gr helt)
          have hcl : (stratBest.combine rest
              (pushEntries gr h ((e.node, e.cost) :: visited) e)).length =
              rest.length + (pushEntries gr h ((e.node, e.cost) :: visited) e).length := by
            show (rest ++ _).length = _
            simp
          unfold measureS at hfuel ⊢
          rw [hcl]
          simp only [List.length_cons]
          have h1 : gr.n + 1 - visited.length = (gr.n - visited.length) + 1 :=
            Nat.succ_sub hvl
          have h2 : gr.n + 1 - (visited.length + 1) = gr.n - visited.length :=
            Nat.succ_sub_succ _ _
          rw [h1] at hfuel
          rw [h2]
          have hexpand : ((gr.n - visited.length) + 1) * (totalDeg gr + 1) =
              (gr.n - visited.length) * (totalDeg gr + 1) + (totalDeg gr + 1) := by ring
          rw [hexpand] at hfuel
          generalize (gr.n - visited.length) * (totalDeg gr + 1) = K at hfuel ⊢
          omega

theorem SInv_init {gr : Graph} (h : Nat → ℚ) (s t : Nat) (hs : s < gr.n) :
    SInv gr h s t [] [⟨h s, 0, s, [s]⟩] 0 := by
  refine ⟨by simp, by simp, by simp, by simp, ?_, by simp⟩
  intro e he
  simp at he
  subst he
  refine ⟨hs, by simp, rfl, rfl, rfl⟩

theorem OInv_init {gr : Graph} (h : Nat → ℚ) (s : Nat) :
    OInv gr s [] [⟨h s, 0, s, [s]⟩] := by
  refine ⟨by simp, ?_, by simp⟩
  exact Or.inr ⟨⟨h s, 0, s, [s]⟩, List.mem_singleton.mpr rfl, rfl, le_refl 0⟩

theorem runSearch_valid {gr : Graph} {h : Nat → ℚ} {st : Strategy} {s t : Nat}
    (hwf : WellFormed gr) (hlaw : LawfulStrategy st) (hs : s < gr.n)
    {p : List Nat} {c : ℚ} {cnt : Nat}
    (heq : runSearch gr h st s t = (some (p, c), cnt)) :
    p.head? = some s ∧ p.getLast? = some t ∧ routeCost gr p = some c :=
  searchLoop_valid hwf hlaw (searchFuel gr) [] [⟨h s, 0, s, [s]⟩] 0 p c cnt
    (SInv_init h s t hs) heq

theorem runSearch_opt {gr : Graph} {h : Nat → ℚ} {s t : Nat}
    (hwf : WellFormed gr) (hcons : Consistent gr h) (hs : s < gr.n)
    {p : List Nat} {c : ℚ} {cnt : Nat}
    (heq : runSearch gr h stratBest s t = (some (p, c), cnt)) :
    ∀ c2, PathFrom gr s t c2 → c ≤ c2 :=
  searchLoop_opt hwf hcons (searchFuel gr) [] [⟨h s, 0, s, [s]⟩] 0 p c cnt
    (SInv_init h s t hs) (OInv_init h s) heq

theorem runSearch_complete {gr : Graph} {h : Nat → ℚ} {s t : Nat}
    (hwf : WellFormed gr) (hcons : Consistent gr h) (hs : s < gr.n)
    (hex : ∃ c, PathFrom gr s t c) :
    ((runSearch gr h stratBest s t).1).isSome := by
  refine searchLoop_complete hwf hcons (searchFuel gr) [] [⟨h s, 0, s, [s]⟩] 0
    (SInv_init h s t hs) (OInv_init h s) hex ?_
  unfold measureS searchFuel
  simp

theorem runSearch_count {gr : Graph} {h : Nat → ℚ} {st : Strategy} {s t : Nat}
    (hwf : WellFormed gr) (hlaw : LawfulStrategy st) (hs : s < gr.n) :
    (runSearch gr h st s t).2 ≤ gr.n :=
  searchLoop_count hwf hlaw (searchFuel gr) [] [⟨h s, 0, s, [s]⟩] 0 (SInv_init h s t hs)

theorem runSearch_self {gr : Graph} {h : Nat → ℚ} {st : Strategy} {s : Nat}
    (hlaw : LawfulStrategy st) :
    runSearch gr h st s s = (some ([s], 0), 1) := by
  unfold runSearch
  have hfuel : searchFuel gr = ((gr.n + 1) * (totalDeg gr + 1) + 1) + 1 := by
    unfold searchFuel
    ring
  rw [hfuel, searchLoop]
  cases hpick : st.pick [⟨h s, 0, s, [s]⟩] with
  | none =>
    exfalso
    have := hlaw.pick_none _ hpick
    simp at this
  | some pr =>
    obtain ⟨e, rest⟩ := pr
    have hperm := hlaw.pick_perm _ e rest hpick
    have heq : e :: rest = [⟨h s, 0, s, [s]⟩] := List.perm_singleton.mp hperm.symm
    have he : e = ⟨h s, 0, s, [s]⟩ := by
      have := congrArg List.head? heq
      simpa using this
    subst he
    simp [isSettled]

/-- A coordinate: latitude and longitude, as exact rationals standing for
the floating-point degrees of the code. -/
abbrev Coord : Type := ℚ × ℚ

/-- Modelled from the spec (§2, §3; pathfinding.py is absent from the
snapshot): the engine state built once at startup — the graph, node
coordinates, the POI registry, and the geographic distance function.  The
code computes great-circle (haversine) distances; haversine is
transcendental, so the distance function is carried as a component and
its required properties are stated as hypotheses where theorems need
them. -/
structure Pathfinder where
  graph : Graph
  coords : Nat → Coord
  pois : List (String × Coord)
  gdist : Coord → Coord → ℚ

/-- Modelled from the spec (§4.3): the Euclidean heuristic — straight-line
geographic distance from the node to the end node. -/
def heurEuclid (pf : Pathfinder) (goal : Nat) : Nat → ℚ :=
  fun v => pf.gdist (pf.coords v) (pf.coords goal)

/-- Modelled from the spec (§4.3): the Manhattan heuristic — the
latitude-axis geographic distance plus the longitude-axis geographic
distance between the node and the end node. -/
def heurManhattan (pf : Pathfinder) (goal : Nat) : Nat → ℚ :=
  fun v =>
    pf.gdist (pf.coords v) ((pf.coords goal).1, (pf.coords v).2) +
    pf.gdist ((pf.coords goal).1, (pf.coords v).2) (pf.coords goal)

/-- Modelled from the spec (§4.3): the Combined heuristic —
0.7 Euclidean + 0.3 Manhattan. -/
def heurCombined (pf : Pathfinder) (goal : Nat) : Nat → ℚ :=
  fun v => (7 / 10) * heurEuclid pf goal v + (3 / 10) * heurManhattan pf goal v

/-- Modelled from the spec (§4.1): the builder derives every edge weight as
the geographic distance between the edge's endpoint coordinates. -/
def WellBuilt (pf : Pathfinder) : Prop :=
  WellFormed pf.graph ∧
  ∀ u ∈ List.range pf.graph.n, ∀ p ∈ pf.graph.adj u,
    p.2 = pf.gdist (pf.coords u) (pf.coords p.1)

instance (pf : Pathfinder) : Decidable (WellBuilt pf) := by
  unfold WellBuilt; infer_instance

/-- The geographic distance satisfies the triangle inequality on the node
coordinates — the property a great-circle metric guarantees. -/
def NodeTriangle (pf : Pathfinder) : Prop :=
  ∀ u ∈ List.range pf.graph.n, ∀ v ∈ List.range pf.graph.n, ∀ z ∈ List.range pf.graph.n,
    pf.gdist (pf.coords u) (pf.coords z) ≤
      pf.gdist (pf.coords u) (pf.coords v) + pf.gdist (pf.coords v) (pf.coords z)

instance (pf : Pathfinder) : Decidable (NodeTriangle pf) := by
  unfold NodeTriangle; infer_instance

/-- On a well-built graph whose distance function satisfies the triangle
inequality over node coordinates, the Euclidean heuristic is edge-wise
consistent, hence never overestimates along any edge — the guarantee the
spec demands (§4.3). -/
theorem heurEuclid_consistent (pf : Pathfinder) (goal : Nat)
    (hwb : WellBuilt pf) (htri : NodeTriangle pf) (hg : goal < pf.graph.n) :
    Consistent pf.graph (heurEuclid pf goal) := by
  intro u hu p hp
  have hw := hwb.2 u hu p hp
  have hv : p.1 < pf.graph.n := ((hwb.1 u hu).1 p hp).1
  have := htri u hu p.1 (List.mem_range.mpr hv) goal (List.mem_range.mpr hg)
  unfold heurEuclid
  rw [hw]
  exact this

/-- First coordinate recorded for a name in the POI registry — the
dictionary lookup of the code. -/
def poiLookup : List (String × Coord) → String → Option Coord
  | [], _ => none
  | (n2, c) :: rest, name => if n2 = name then some c else poiLookup rest name

/-- Modelled from the spec (§4.2): snap a coordinate onto the graph node of
minimum geographic distance; the first minimum wins, so resolution is
deterministic. -/
def nearestNode (pf : Pathfinder) (c : Coord) : Nat :=
  (List.range pf.graph.n).foldl
    (fun best v =>
      if pf.gdist (pf.coords v) c < pf.gdist (pf.coords best) c then v else best) 0

theorem nearestNode_lt (pf : Pathfinder) (c : Coord) (hn : 0 < pf.graph.n) :
    nearestNode pf c < pf.graph.n := by
  unfold nearestNode
  have hgen : ∀ (l : List Nat) (b : Nat), b < pf.graph.n → (∀ x ∈ l, x < pf.graph.n) →
      l.foldl (fun best v =>
        if pf.gdist (pf.coords v) c < pf.gdist (pf.coords best) c then v else best) b <
        pf.graph.n := by
    intro l
    induction l with
    | nil => intro b hb _; exact hb
    | cons x xs ih =>
      intro b hb hall
      simp only [List.foldl_cons]
      refine ih _ ?_ (fun y hy => hall y (List.mem_cons_of_mem _ hy))
      by_cases hx : pf.gdist (pf.coords x) c < pf.gdist (pf.coords b) c
      · rw [if_pos hx]; exact hall x (List.mem_cons_self _ _)
      · rw [if_neg hx]; exact hb
  exact hgen (List.range pf.graph.n) 0 hn (fun x hx => List.mem_range.mp hx)

/-- Modelled from the spec (§4.2, §6): resolve a POI name to a graph node;
an unknown name fails with LocationNotFoundError. -/
def resolve (pf : Pathfinder) (name : String) : Except String Nat :=
  match poiLookup pf.pois name with
  | none => Except.error "LocationNotFoundError"
  | some c => Except.ok (nearestNode pf c)

/-- Location display record returned by `get_location_info`. -/
structure LocationInfo where
  name : String
  coordinates : Coord
deriving DecidableEq

/-- Modelled from the spec (§6): `locationInfo` — the display name and
coordinate of a known POI; LocationNotFoundError otherwise. -/
def getLocationInfo (pf : Pathfinder) (name : String) : Except String LocationInfo :=
  match poiLookup pf.pois name with
  | none => Except.error "LocationNotFoundError"
  | some c => Except.ok ⟨name, c⟩

theorem poiLookup_none_iff (l : List (String × Coord)) (name : String) :
    poiLookup l name = none ↔ name ∉ l.map Prod.fst := by
  induction l with
  | nil => simp [poiLookup]
  | cons p rest ih =>
    obtain ⟨n2, c⟩ := p
    by_cases hn : n2 = name
    · subst hn
      simp [poiLookup]
    · simp only [poiLookup, if_neg hn]
      rw [ih]
      simp only [List.map_cons, List.mem_cons]
      constructor
      · intro h1 hor
        rcases hor with h2 | h2
        · exact hn h2.symm
        · exact h1 h2
      · intro h1 h2
        exact h1 (Or.inr h2)

/-- The algorithm choices offered by the app's selectbox
(app.py, "Choose Algorithm"). -/
def algorithmOptions : List String :=
  ["BFS", "DFS", "UCS", "A*", "A* (Euclidean)", "A* (Manhattan)", "A* (Combined)"]

/-- The six selector values the specification names for `findPath` (§6),
written as the corresponding selectbox options. -/
def claimSelectors : List String :=
  ["BFS", "DFS", "UCS", "A* (Euclidean)", "A* (Manhattan)", "A* (Combined)"]

/-- Modelled from the spec (§4.3, §6) and the app's selectbox: dispatch a
selector string to its search run.  The plain `A*` selector is the
app's default and the one the assistant passes to `find_path`
(gemini_integration.py); the default heuristic is taken to be the
Euclidean one.  Unknown selectors yield `none`. -/
def runAlgorithm (pf : Pathfinder) (sel : String) (s t2 : Nat) :
    Option (Option (List Nat × ℚ) × Nat) :=
  if sel = "BFS" then some (bfsRun pf.graph s t2)
  else if sel = "DFS" then some (dfsRun pf.graph s t2)
  else if sel = "UCS" then some (ucsRun pf.graph s t2)
  else if sel = "A*" then some (astarRun pf.graph (heurEuclid pf t2) s t2)
  else if sel = "A* (Euclidean)" then some (astarRun pf.graph (heurEuclid pf t2) s t2)
  else if sel = "A* (Manhattan)" then some (astarRun pf.graph (heurManhattan pf t2) s t2)
  else if sel = "A* (Combined)" then some (astarRun pf.graph (heurCombined pf t2) s t2)
  else none

theorem runAlgorithm_isRun {pf : Pathfinder} {sel : String} {s t2 : Nat}
    {res : Option (List Nat × ℚ) × Nat} (h : runAlgorithm pf sel s t2 = some res) :
    ∃ hh st, LawfulStrategy st ∧ res = runSearch pf.graph hh st s t2 := by
  unfold runAlgorithm at h
  split_ifs at h with h1 h2 h3 h4 h5 h6 h7
  · exact ⟨_, stratBFS, lawful_stratBFS, (Option.some_injective _ h).symm⟩
  · exact ⟨_, stratDFS, lawful_stratDFS, (Option.some_injective _ h).symm⟩
  · exact ⟨_, stratBest, lawful_stratBest, (Option.some_injective _ h).symm⟩
  · exact ⟨_, stratBest, lawful_stratBest, (Option.some_injective _ h).symm⟩
  · exact ⟨_, stratBest, lawful_stratBest, (Option.some_injective _ h).symm⟩
  · exact ⟨_, stratBest, lawful_stratBest, (Option.some_injective _ h).symm⟩
  · exact ⟨_, stratBest, lawful_stratBest, (Option.some_injective _ h).symm⟩

theorem runAlgorithm_isSome_iff (pf : Pathfinder) (sel : String) (s t2 : Nat) :
    (runAlgorithm pf sel s t2).isSome = true ↔ sel ∈ algorithmOptions := by
  constructor
  · intro h
    unfold runAlgorithm at h
    split_ifs at h with h1 h2 h3 h4 h5 h6 h7
    · rw [h1]; simp [algorithmOptions]
    · rw [h2]; simp [algorithmOptions]
    · rw [h3]; simp [algorithmOptions]
    · rw [h4]; simp [algorithmOptions]
    · rw [h5]; simp [algorithmOptions]
    · rw [h6]; simp [algorithmOptions]
    · rw [h7]; simp [algorithmOptions]
    · simp at h
  · intro h
    simp only [algorithmOptions, List.mem_cons, List.not_mem_nil, or_false] at h
    unfold runAlgorithm
    rcases h with h | h | h | h | h | h | h <;> rw [h] <;> simp

/-- Modelled from the spec (§3, §4.4): the metrics derived from a route —
total distance, estimated time, nodes-explored count and endpoint names,
the keys the app reads from `result['metrics']`. -/
structure RouteMetrics where
  distance : ℚ
  time : ℚ
  nodes_explored : Nat
  start_location : String
  end_location : String
deriving DecidableEq

/-- Modelled from the spec (§4.4): estimated walking time — distance at 1.4
meters per second, reported in minutes. -/
def walkTime (d : ℚ) : ℚ := d / (7 / 5) / 60

/-- Result of `find_path`: the route when one exists, plus metrics. -/
structure FindResult where
  route : Option (List Nat)
  metrics : RouteMetrics
deriving DecidableEq

/-- Modelled from the spec (§4.3, §4.4, §6): `findPath` — resolve both
names, dispatch the selector, and aggregate metrics; absence of a path is
a normal result with zero distance metrics. -/
def findPath (pf : Pathfinder) (startName endName sel : String) :
    Except String FindResult :=
  match resolve pf startName with
  | Except.error e => Except.error e
  | Except.ok sNode =>
    match resolve pf endName with
    | Except.error e => Except.error e
    | Except.ok tNode =>
      match runAlgorithm pf sel sNode tNode with
      | none => Except.error "UnknownAlgorithmError"
      | some (none, cnt) =>
        Except.ok ⟨none, ⟨0, 0, cnt, startName, endName⟩⟩
      | some (some (p, c), cnt) =>
        Except.ok ⟨some p, ⟨c, walkTime c, cnt, startName, endName⟩⟩

/-- One row of the heuristic comparison table. -/
structure HeuristicRow where
  title : String
  avgDistance : ℚ
  avgNodes : ℚ
  efficiency : ℚ
deriving DecidableEq

/-- Average distance and average nodes explored of an A* heuristic over the
sample pairs (Modelled from the spec §4.5; a failed run contributes zero
distance). -/
def heuristicStats (pf : Pathfinder) (hfam : Nat → Nat → ℚ)
    (samples : List (Nat × Nat)) : ℚ × ℚ :=
  let results := samples.map (fun pr => astarRun pf.graph (hfam pr.2) pr.1 pr.2)
  let dsum := (results.map (fun r => match r.1 with | some (_, c) => c | none => 0)).sum
  let nsum := (results.map (fun r => (r.2 : ℚ))).sum
  (dsum / (samples.length : ℚ), nsum / (samples.length : ℚ))

/-- Build one comparison row; the efficiency score is average distance
divided by average nodes explored (Modelled from the spec §4.5). -/
def mkHeuristicRow (pf : Pathfinder) (nm : String) (hfam : Nat → Nat → ℚ)
    (samples : List (Nat × Nat)) : HeuristicRow :=
  let st := heuristicStats pf hfam samples
  ⟨nm, st.1, st.2, st.1 / st.2⟩

/-- Modelled from the spec (§4.5, §6): `compareHeuristics` — one averaged
row per heuristic over the fixed sample set. -/
def compareHeuristics (pf : Pathfinder) (samples : List (Nat × Nat)) :
    List HeuristicRow :=
  [mkHeuristicRow pf "Euclidean" (fun g2 => heurEuclid pf g2) samples,
   mkHeuristicRow pf "Manhattan" (fun g2 => heurManhattan pf g2) samples,
   mkHeuristicRow pf "Combined" (fun g2 => heurCombined pf g2) samples]

/-- The app's best-efficiency pick (app.py, `idxmax` on the Efficiency
Score column): the first row attaining the maximal score. -/
def bestEfficiency : List HeuristicRow → Option HeuristicRow
  | [] => none
  | r :: rest =>
    some (rest.foldl (fun best x => if best.efficiency < x.efficiency then x else best) r)

theorem bestEfficiency_max :
    ∀ (rest : List HeuristicRow) (r : HeuristicRow),
      (rest.foldl (fun best x => if best.efficiency < x.efficiency then x else best) r
        ∈ r :: rest) ∧
      ∀ x ∈ r :: rest,
        x.efficiency ≤
          (rest.foldl (fun best x => if best.efficiency < x.efficiency then x else best)
            r).efficiency := by
  intro rest
  induction rest with
  | nil =>
    intro r
    refine ⟨List.mem_singleton.mpr rfl, ?_⟩
    intro x hx
    rw [List.mem_singleton.mp hx]
    exact le_refl _
  | cons y ys ih =>
    intro r
    simp only [List.foldl_cons]
    have hcase : (if r.efficiency < y.efficiency then y else r) = y ∨
        (if r.efficiency < y.efficiency then y else r) = r := by
      split_ifs
      · exact Or.inl rfl
      · exact Or.inr rfl
    have hry : r.efficiency ≤ (if r.efficiency < y.efficiency then y else r).efficiency := by
      split_ifs with hc
      · exact le_of_lt hc
      · exact le_refl _
    have hyy : y.efficiency ≤ (if r.efficiency < y.efficiency then y else r).efficiency := by
      split_ifs with hc
      · exact le_refl _
      · exact le_of_not_lt hc
    obtain ⟨ihmem, ihle⟩ := ih (if r.efficiency < y.efficiency then y else r)
    constructor
    · rcases List.mem_cons.mp ihmem with hm | hm
      · rw [hm]
        rcases hcase with hc | hc
        · rw [hc]; exact List.mem_cons_of_mem _ (List.mem_cons_self _ _)
        · rw [hc]; exact List.mem_cons_self _ _
      · exact List.mem_cons_of_mem _ (List.mem_cons_of_mem _ hm)
    · intro x hx
      have hseed := ihle _ (List.mem_cons_self _ _)
      rcases List.mem_cons.mp hx with hm | hm
      · subst hm
        exact le_trans hry hseed
      · rcases List.mem_cons.mp hm with hm2 | hm2
        · subst hm2
          exact le_trans hyy hseed
        · exact ihle x (List.mem_cons_of_mem _ hm2)

/-- Do the first characters of the first list spell out the second list? -/
def charsStartWith : List Char → List Char → Bool
  | _, [] => true
  | [], _ :: _ => false
  | c :: cs, d :: ds => (c = d) && charsStartWith cs ds

/-- Does the second list occur contiguously inside the first? -/
def charsContain : List Char → List Char → Bool
  | [], needle => needle.isEmpty
  | c :: cs, needle => charsStartWith (c :: cs) needle || charsContain cs needle

/-- Python's `needle in hay` on strings. -/
def strContains (hay needle : String) : Bool :=
  charsContain hay.toList needle.toList

/-- The category table hardcoded in `_create_campus_context` and
`_format_location_list` (gemini_integration.py). -/
def campusCategories : List (String × List String) :=
  [("Academic", ["Acad 1", "Acad 2", "Library"]),
   ("Facilities", ["Food Court", "Faculty Block", "Hostel Block"]),
   ("Sports", ["Cricket Ground", "Basket Ball", "Volley Ball", "Tennis Ball", "Foot Ball"]),
   ("Security/Access", ["Entry gate", "Exit gate", "Check post 1", "Check post 2"]),
   ("Other", ["Flag post", "Rest Area"])]

/-- The `all_locations` list built and never read in
`_format_location_list` (gemini_integration.py). -/
def allLocationsDead : List String :=
  ["Flag post", "Entry gate", "Exit gate", "Check post 1", "Check post 2",
   "Acad 1", "Acad 2", "Library", "Food Court", "Faculty Block",
   "Hostel Block", "Cricket Ground", "Basket Ball", "Volley Ball",
   "Tennis Ball", "Foot Ball", "Rest Area"]

/-- Coordinate rendering used in the campus context string. -/
def formatCoord (c : Coord) : String :=
  "(" ++ toString c.1 ++ ", " ++ toString c.2 ++ ")"

/-- Embedding of `GeminiAssistant._create_campus_context`: category
headers with the coordinates of each registered location, followed by the
fixed algorithm blurb including the 1.4 meters-per-second walking speed. -/
def createCampusContext (pois : List (String × Coord)) : String :=
  (campusCategories.foldl (fun acc cat =>
    acc ++ cat.1 ++ ":\n" ++
    (cat.2.foldl (fun acc2 loc =>
      match poiLookup pois loc with
      | some c => acc2 ++ "  - " ++ loc ++ ": " ++ formatCoord c ++ "\n"
      | none => acc2) "") ++ "\n") "Campus Locations and Information:\n\n") ++
  "Available pathfinding algorithms: BFS, DFS, UCS, A*.\n" ++
  "The campus map includes walking paths, roads, and various points of interest.\n" ++
  "Walking time is estimated at 1.4 meters per second average speed.\n"

/-- Keyword list of `GeminiAssistant._is_route_query`. -/
def routeKeywords : List String :=
  ["route", "path", "way", "get to", "go to", "from", "to",
   "direction", "navigate", "walk", "distance", "how far"]

/-- Embedding of `GeminiAssistant._is_route_query`: any route keyword
occurs in the lowercased query. -/
def isRouteQuery (query : String) : Bool :=
  routeKeywords.any (fun k => strContains query.toLower k)

/-- Embedding of `GeminiAssistant._format_location_list`: the reply is
assembled from the hardcoded category table; the `pois` argument and the
local `all_locations` list are never consulted. -/
def formatLocationList (pois : List (String × Coord)) : String :=
  let _unusedPois := pois
  let _unusedAll := allLocationsDead
  campusCategories.foldl (fun acc cat =>
    acc ++ "\n**" ++ cat.1 ++ ":** " ++ String.intercalate ", " cat.2) ""

/-- Embedding of `GeminiAssistant._provide_location_help`. -/
def provideLocationHelp (pois : List (String × Coord)) : String :=
  "I understand you're asking about navigation, but I need clarification " ++
  "on the specific locations.\n\nAvailable Campus Locations:\n" ++
  formatLocationList pois ++
  "\nCould you please specify your start and end locations more clearly?"

/-- Effectful collaborators of the assistant: whether the Gemini client is
configured, the model call (prompt to response text, or a raised
exception), JSON extraction of the start/end fields (or a raised
exception), and `pathfinder.find_path` returning metrics (or a raised
exception).  `Except.error` models a Python exception. -/
structure PyEnv where
  aiAvailable : Bool
  generate : String → Except String String
  jsonExtract : String → Except String (Option String × Option String)
  findPathMetrics : String → String → String → Except String RouteMetrics

/-- Route reply template of `_handle_route_query_with_ai`. -/
def routeInfoMessage (sl el : String) (m : RouteMetrics) : String :=
  "Route Information: " ++ sl ++ " to " ++ el ++
  "\nDistance: " ++ toString m.distance ++ " meters" ++
  "\nEstimated Walking Time: " ++ toString m.time ++ " minutes" ++
  "\nAlgorithm Used: A* (optimal pathfinding)" ++
  "\nNodes Explored: " ++ toString m.nodes_explored

/-- Route reply template of `_handle_route_query_fallback`. -/
def basicRouteMessage (sl el : String) (m : RouteMetrics) : String :=
  "Route Information: " ++ sl ++ " to " ++ el ++
  "\nDistance: " ++ toString m.distance ++ " meters" ++
  "\nEstimated Walking Time: " ++ toString m.time ++ " minutes" ++
  "\nAlgorithm Used: A* (optimal pathfinding)" ++
  "\nNote: This is a basic response."

/-- Embedding of `GeminiAssistant._handle_route_query_fallback`: locations
whose lowercased name occurs in the query, first two used; the inner
`find_path` call is guarded by its own try/except that converts a raise
into an error text. -/
def handleRouteQueryFallback (env : PyEnv) (query : String)
    (pois : List (String × Coord)) : Except String String :=
  let found := pois.filter (fun pr => strContains query.toLower pr.1.toLower)
  match found with
  | p1 :: p2 :: _ =>
    match env.findPathMetrics p1.1 p2.1 "A*" with
    | Except.ok m => Except.ok (basicRouteMessage p1.1 p2.1 m)
    | Except.error e =>
      Except.ok ("Found locations " ++ p1.1 ++ " and " ++ p2.1 ++
        ", but encountered an error: " ++ e)
  | _ => Except.ok (provideLocationHelp pois)

/-- Embedding of `GeminiAssistant._handle_route_query_with_ai`: the model
extracts endpoints, `find_path` runs with the `A*` selector; any raise in
the body falls back to the keyword handler. -/
def handleRouteQueryWithAI (env : PyEnv) (query : String)
    (pois : List (String × Coord)) : Except String String :=
  match env.generate query with
  | Except.error _ => handleRouteQueryFallback env query pois
  | Except.ok txt =>
    match env.jsonExtract txt with
    | Except.error _ => handleRouteQueryFallback env query pois
    | Except.ok (startOpt, endOpt) =>
      match startOpt, endOpt with
      | some sl, some el =>
        if sl ≠ "" ∧ el ≠ "" ∧ (poiLookup pois sl).isSome ∧ (poiLookup pois el).isSome then
          match env.findPathMetrics sl el "A*" with
          | Except.ok m => Except.ok (routeInfoMessage sl el m)
          | Except.error _ => handleRouteQueryFallback env query pois
        else Except.ok (provideLocationHelp pois)
      | _, _ => Except.ok (provideLocationHelp pois)

/-- Embedding of `GeminiAssistant._handle_route_query`: AI path when the
client is configured, keyword fallback otherwise; a raise escaping either
is converted to the route error text. -/
def handleRouteQuery (env : PyEnv) (query : String)
    (pois : List (String × Coord)) : Except String String :=
  match (if env.aiAvailable then handleRouteQueryWithAI env query pois
         else handleRouteQueryFallback env query pois) with
  | Except.ok s => Except.ok s
  | Except.error e =>
    Except.ok ("I encountered an error processing your route query: " ++ e ++
      ". Please try using the manual pathfinding controls above.")

/-- Embedding of `GeminiAssistant._handle_general_query_fallback`: fixed
keyword-routed replies; the final branch formats the location list of an
emptied registry, as the code's dead dict comprehension does. -/
def handleGeneralQueryFallback (query : String) : Except String String :=
  let ql := query.toLower
  if strContains ql "food" || strContains ql "eat" then
    Except.ok "The Food Court is available for dining. It's located at coordinates (13.22488, 77.75716)."
  else if strContains ql "library" || strContains ql "book" || strContains ql "study" then
    Except.ok "The Library is perfect for studying and research. It's located at coordinates (13.22199, 77.75540)."
  else if strContains ql "sports" || strContains ql "game" || strContains ql "play" then
    Except.ok "We have several sports facilities: Cricket Ground, Basketball Court, Volleyball Court, Tennis Court, Football Field."
  else if strContains ql "academic" || strContains ql "class" then
    Except.ok "Academic facilities include: Acad 1, Acad 2, Faculty Block."
  else
    Except.ok ("Campus Assistant (Basic Mode)\n" ++ formatLocationList [] ++
      "\nEnhanced AI responses are temporarily unavailable.")

/-- Embedding of `GeminiAssistant._handle_general_query_with_ai`: a model
reply is returned when non-empty; an empty reply yields the apology text;
a raise falls back to the keyword handler. -/
def handleGeneralQueryWithAI (env : PyEnv) (query ctx : String) :
    Except String String :=
  match env.generate (ctx ++ "\n\nUser Question: " ++ query) with
  | Except.ok txt =>
    if txt ≠ "" then Except.ok ("Campus Assistant Response:\n\n" ++ txt)
    else Except.ok "I apologize, but I couldn't generate a response to your query. Please try rephrasing your question."
  | Except.error _ => handleGeneralQueryFallback query

/-- Embedding of `GeminiAssistant._handle_general_query`. -/
def handleGeneralQuery (env : PyEnv) (query ctx : String) :
    Except String String :=
  if env.aiAvailable then handleGeneralQueryWithAI env query ctx
  else handleGeneralQueryFallback query

/-- Body of `GeminiAssistant.process_query` before its surrounding
try/except. -/
def processQueryBody (env : PyEnv) (query : String)
    (pois : List (String × Coord)) : Except String String :=
  let ctx := createCampusContext pois
  if isRouteQuery query then handleRouteQuery env query pois
  else handleGeneralQuery env query ctx

/-- Embedding of `GeminiAssistant.process_query`: the whole body runs
inside try/except, and a raise is converted to the apology text, so the
method returns a string on every input. -/
def processQuery (env : PyEnv) (query : String)
    (pois : List (String × Coord)) : Except String String :=
  match processQueryBody env query pois with
  | Except.ok s => Except.ok s
  | Except.error e =>
    Except.ok ("I apologize, but I encountered an error processing your query: " ++
      e ++ ". Please try rephrasing your question.")

instance {ε α : Type} [DecidableEq ε] [DecidableEq α] : DecidableEq (Except ε α) := fun x y =>
  match x, y with
  | .ok a, .ok b =>
    if h : a = b then isTrue (by rw [h]) else isFalse (fun hc => h (Except.ok.inj hc))
  | .error a, .error b =>
    if h : a = b then isTrue (by rw [h]) else isFalse (fun hc => h (Except.error.inj hc))
  | .ok _, .error _ => isFalse (fun hc => Except.noConfusion hc)
  | .error _, .ok _ => isFalse (fun hc => Except.noConfusion hc)

/-- Modelled from the spec (glossary, §4.3): a heuristic is admissible for
goal `t` when it never overestimates the true remaining distance — the
cost of any path to the goal. -/
def Admissible (gr : Graph) (h : Nat → ℚ) (t : Nat) : Prop :=
  ∀ v, v < gr.n → ∀ c, PathFrom gr v t c → h v ≤ c

/-- Any function bounded by an edge-wise consistent potential that
vanishes at the goal is admissible. -/
theorem admissible_of_potential (gr : Graph) (hwf : WellFormed gr)
    (φ h : Nat → ℚ) (t : Nat) (hcons : Consistent gr φ) (ht : φ t = 0)
    (hle : ∀ v, v < gr.n → h v ≤ φ v) : Admissible gr h t := by
  intro v hv c hp
  have h1 := consistent_along hwf hcons hp hv
  rw [ht] at h1
  have h2 := hle v hv
  linarith

/-- The zero heuristic of UCS is edge-wise consistent on any well-formed
graph. -/
theorem consistent_zero {gr : Graph} (hwf : WellFormed gr) :
    Consistent gr (fun _ => 0) := by
  intro u hu p hp
  have := (hwf u hu).1 p hp
  simpa using this.2

theorem resolve_lt {pf : Pathfinder} {name : String} {v : Nat}
    (h : resolve pf name = Except.ok v) (hn : 0 < pf.graph.n) :
    v < pf.graph.n := by
  unfold resolve at h
  cases hl : poiLookup pf.pois name with
  | none => rw [hl] at h; exact Except.noConfusion h
  | some c =>
    rw [hl] at h
    have hv : v = nearestNode pf c := (Except.ok.inj h).symm
    rw [hv]
    exact nearestNode_lt pf c hn

theorem poiLookup_mem : ∀ {l : List (String × Coord)} {name : String} {c : Coord},
    poiLookup l name = some c → name ∈ l.map Prod.fst := by
  intro l
  induction l with
  | nil => intro name c h; simp [poiLookup] at h
  | cons p rest ih =>
    intro name c h
    obtain ⟨n2, c2⟩ := p
    by_cases hn : n2 = name
    · subst hn; simp
    · simp only [poiLookup, if_neg hn] at h
      simp [ih h]

/-- Two-node demonstration graph: one edge of weight 7 in each direction. -/
def demoG : Graph :=
  ⟨2, fun u => if u = 0 then [(1, 7)] else if u = 1 then [(0, 7)] else []⟩

/-- Planar L1 distance, a rational stand-in distance function with the
symmetry and triangle-inequality properties of the great-circle metric. -/
def l1dist : Coord → Coord → ℚ := fun a b => |a.1 - b.1| + |a.2 - b.2|

/-- Demonstration pathfinder: two POIs snapped to the two nodes. -/
def demoPF : Pathfinder :=
  ⟨demoG, fun v => if v = 0 then (0, 0) else (3, 4),
   [("Library", (0, 0)), ("Food Court", (3, 4))], l1dist⟩

/-- Pathfinder on the demonstration graph whose distance function returns
the planar Euclidean values of its node coordinates: the two nodes sit at
(0,0) and (3,4), a 3–4–5 configuration, so the diagonal distance is 5
and axis-aligned distances are exact; edge weights equal the distance of
their endpoints, as the builder guarantees. -/
def pfGeo : Pathfinder :=
  ⟨⟨2, fun u => if u = 0 then [(1, 5)] else if u = 1 then [(0, 5)] else []⟩,
   fun v => if v = 0 then (0, 0) else (3, 4),
   [("Library", (0, 0)), ("Food Court", (3, 4))],
   fun a b => if a.1 = b.1 ∨ a.2 = b.2 then |a.1 - b.1| + |a.2 - b.2| else 5⟩

/-- Counterexample graph for optimality under a merely-admissible
heuristic: nodes s = 0, a = 1, b = 2, t = 3; the optimal route
0-1-2-3 costs 5, while the direct 0-2 edge costs 4 and 2-3 costs 3. -/
def cexG : Graph :=
  ⟨4, fun u =>
    if u = 0 then [(1, 1), (2, 4)]
    else if u = 1 then [(0, 1), (2, 1)]
    else if u = 2 then [(0, 4), (1, 1), (3, 3)]
    else if u = 3 then [(2, 3)]
    else []⟩

/-- Admissible heuristic for `cexG` with goal 3: each value is at most the
true remaining distance (5, 4, 3, 0), but the drop from node 1 to node 2
exceeds the edge weight between them, so it is not edge-wise
consistent. -/
def cexH : Nat → ℚ := fun v => if v = 0 then 5 else if v = 1 then 4 else 0

/-- The true remaining distances of `cexG` toward node 3 — an edge-wise
consistent potential dominating `cexH`. -/
def cexPhi : Nat → ℚ :=
  fun v => if v = 0 then 5 else if v = 1 then 4 else if v = 2 then 3 else 0

/-- Counterexample graph for the exploration-count comparison: `cexG`
extended with a dead-end node 4 hanging off node 1 at weight 9/2, placed
so that its cumulative cost 11/2 exceeds the optimal distance 5 while its
priority under `cexH3` stays below the goal's 7. -/
def cexG3 : Graph :=
  ⟨5, fun u =>
    if u = 0 then [(1, 1), (2, 4)]
    else if u = 1 then [(0, 1), (2, 1), (4, 9/2)]
    else if u = 2 then [(0, 4), (1, 1), (3, 3)]
    else if u = 3 then [(2, 3)]
    else if u = 4 then [(1, 9/2)]
    else []⟩

/-- Admissible heuristic for `cexG3` with goal 3. -/
def cexH3 : Nat → ℚ := fun v => if v = 0 then 5 else if v = 1 then 4 else 0

/-- True remaining distances of `cexG3` toward node 3 (node 4 is at
9/2 + 4 = 17/2), an edge-wise consistent potential dominating `cexH3`. -/
def cexPhi3 : Nat → ℚ :=
  fun v =>
    if v = 0 then 5 else if v = 1 then 4 else if v = 2 then 3
    else if v = 3 then 0 else 17/2

/-- C1 counterexample: the spec guarantees only that the heuristics never
overestimate the true remaining distance (admissibility).  On `cexG` the
admissible, non-negative heuristic `cexH` makes A* return the route
0-2-3 of distance 7 while UCS returns the optimal 0-1-2-3 of distance 5,
so A* and UCS do not agree and A* is not minimal; moreover, on a
well-built 3-4-5 instance the spec's own Manhattan heuristic
overestimates the true remaining distance (7 against a route of cost 5),
so it is not even admissible. -/
theorem C1_counterexample :
    WellFormed cexG ∧ (∀ v, 0 ≤ cexH v) ∧ Admissible cexG cexH 3 ∧
    ucsRun cexG 0 3 = (some ([0, 1, 2, 3], 5), 4) ∧
    astarRun cexG cexH 0 3 = (some ([0, 2, 3], 7), 4) ∧
    ((7 : ℚ) ≠ 5) ∧
    WellBuilt pfGeo ∧ ¬ Admissible pfGeo.graph (heurManhattan pfGeo 1) 1 := by
  refine ⟨by decide, ?_, ?_, by with_unfolding_all rfl, by with_unfolding_all rfl,
    by norm_num, of_decide_eq_true (by with_unfolding_all rfl), ?_⟩
  · intro v
    unfold cexH
    split_ifs <;> norm_num
  · exact admissible_of_potential cexG (by decide) cexPhi cexH 3
      (of_decide_eq_true (by with_unfolding_all rfl)) (by norm_num [cexPhi])
      (of_decide_eq_true (by with_unfolding_all rfl))
  · intro hadm
    have hp : PathFrom pfGeo.graph 0 1 (5 + 0) :=
      PathFrom.cons (by decide) (PathFrom.nil 1)
    have hle := hadm 0 (by decide) (5 + 0) hp
    have hval : heurManhattan pfGeo 1 0 = 7 := by with_unfolding_all rfl
    rw [hval] at hle
    norm_num at hle

/-- C1 amended: on a well-formed graph, UCS and A* with any heuristic
satisfying the edge-wise never-overestimate guarantee (consistency — the
Euclidean heuristic satisfies it by the triangle inequality, see
`heurEuclid_consistent`, while the Manhattan and Combined heuristics can
overestimate) return routes of equal total distance, that distance is
minimal among all paths, and any route returned by BFS or DFS has total
distance at least that optimum. -/
theorem C1_optimality_amended (gr : Graph) (h : Nat → ℚ)
    (hwf : WellFormed gr) (hcons : Consistent gr h) (s t : Nat) (hs : s < gr.n)
    (hconn : ∃ c0, PathFrom gr s t c0) :
    ∃ pu cu cntu pa ca cnta,
      ucsRun gr s t = (some (pu, cu), cntu) ∧
      astarRun gr h s t = (some (pa, ca), cnta) ∧
      ca = cu ∧ PathFrom gr s t cu ∧
      (∀ c2, PathFrom gr s t c2 → cu ≤ c2) ∧
      (∀ pb cb cntb, bfsRun gr s t = (some (pb, cb), cntb) → cu ≤ cb) ∧
      (∀ pd cd cntd, dfsRun gr s t = (some (pd, cd), cntd) → cu ≤ cd) := by
  have hcons0 : Consistent gr (fun _ => 0) := consistent_zero hwf
  have hu : ((ucsRun gr s t).1).isSome = true := runSearch_complete hwf hcons0 hs hconn
  rcases hueq : ucsRun gr s t with ⟨ou, cntu⟩
  rw [hueq] at hu
  cases ou with
  | none => simp at hu
  | some pru =>
    obtain ⟨pu, cu⟩ := pru
    have ha : ((astarRun gr h s t).1).isSome = true := runSearch_complete hwf hcons hs hconn
    rcases haeq : astarRun gr h s t with ⟨oa, cnta⟩
    rw [haeq] at ha
    cases oa with
    | none => simp at ha
    | some pra =>
      obtain ⟨pa, ca⟩ := pra
      have hvu := runSearch_valid hwf lawful_stratBest hs hueq
      have hpathu : PathFrom gr s t cu :=
        pathFrom_of_routeCost hvu.2.2 hvu.1 hvu.2.1
      have hva := runSearch_valid hwf lawful_stratBest hs haeq
      have hpatha : PathFrom gr s t ca :=
        pathFrom_of_routeCost hva.2.2 hva.1 hva.2.1
      have hoptu : ∀ c2, PathFrom gr s t c2 → cu ≤ c2 :=
        runSearch_opt hwf hcons0 hs hueq
      have hopta : ∀ c2, PathFrom gr s t c2 → ca ≤ c2 :=
        runSearch_opt hwf hcons hs haeq
      have heqc : ca = cu := le_antisymm (hopta cu hpathu) (hoptu ca hpatha)
      refine ⟨pu, cu, cntu, pa, ca, cnta, rfl, rfl, heqc, hpathu, hoptu, ?_, ?_⟩
      · intro pb cb cntb hb
        have hvb := runSearch_valid hwf lawful_stratBFS hs hb
        exact hoptu cb (pathFrom_of_routeCost hvb.2.2 hvb.1 hvb.2.1)
      · intro pd cd cntd hd
        have hvd := runSearch_valid hwf lawful_stratDFS hs hd
        exact hoptu cd (pathFrom_of_routeCost hvd.2.2 hvd.1 hvd.2.1)

/-- C1 witness: the amended optimality statement instantiated on the
demonstration graph with the Euclidean heuristic. -/
theorem C1_optimality_amended_witness :
    ∃ pu cu cntu pa ca cnta,
      ucsRun demoG 0 1 = (some (pu, cu), cntu) ∧
      astarRun demoG (heurEuclid demoPF 1) 0 1 = (some (pa, ca), cnta) ∧
      ca = cu ∧ PathFrom demoG 0 1 cu ∧
      (∀ c2, PathFrom demoG 0 1 c2 → cu ≤ c2) ∧
      (∀ pb cb cntb, bfsRun demoG 0 1 = (some (pb, cb), cntb) → cu ≤ cb) ∧
      (∀ pd cd cntd, dfsRun demoG 0 1 = (some (pd, cd), cntd) → cu ≤ cd) :=
  C1_optimality_amended demoG (heurEuclid demoPF 1) (by decide)
    (of_decide_eq_true (by with_unfolding_all rfl)) 0 1 (by decide)
    ⟨7 + 0, PathFrom.cons (by decide) (PathFrom.nil 1)⟩

/-- C2: for every successfully returned result, the reported estimated
time equals the reported distance divided by the walking speed of 1.4
meters per second, converted to minutes. -/
theorem C2_time_formula (pf : Pathfinder) (a b sel : String) (r : FindResult)
    (h : findPath pf a b sel = Except.ok r) :
    r.metrics.time = r.metrics.distance / (7 / 5) / 60 := by
  unfold findPath at h
  cases h1 : resolve pf a with
  | error e => rw [h1] at h; exact Except.noConfusion h
  | ok sN =>
    rw [h1] at h
    cases h2 : resolve pf b with
    | error e => rw [h2] at h; exact Except.noConfusion h
    | ok tN =>
      rw [h2] at h
      dsimp only at h
      cases h3 : runAlgorithm pf sel sN tN with
      | none => rw [h3] at h; exact Except.noConfusion h
      | some res =>
        rw [h3] at h
        obtain ⟨o, cnt⟩ := res
        cases o with
        | none =>
          dsimp only at h
          have hr := Except.ok.inj h
          rw [← hr]
          norm_num
        | some pc =>
          obtain ⟨pp, c⟩ := pc
          dsimp only at h
          have hr := Except.ok.inj h
          rw [← hr]
          dsimp only
          rw [walkTime]

/-- C2 witness: the time formula on a concrete route of the demonstration
pathfinder. -/
theorem C2_time_formula_witness :
    (⟨some [0, 1], ⟨7, walkTime 7, 2, "Library", "Food Court"⟩⟩ : FindResult).metrics.time =
      (⟨some [0, 1],
        ⟨7, walkTime 7, 2, "Library", "Food Court"⟩⟩ : FindResult).metrics.distance /
        (7 / 5) / 60 :=
  C2_time_formula demoPF "Library" "Food Court" "UCS" _ (by with_unfolding_all rfl)

/-- C3 counterexample: on `cexG3` with the admissible non-negative
heuristic `cexH3`, A* settles five nodes while UCS settles only four for
the same pair, so the claimed bound fails. -/
theorem C3_counterexample :
    WellFormed cexG3 ∧ (∀ v, 0 ≤ cexH3 v) ∧ Admissible cexG3 cexH3 3 ∧
    (ucsRun cexG3 0 3).2 = 4 ∧ (astarRun cexG3 cexH3 0 3).2 = 5 ∧
    ¬((5 : Nat) ≤ 4) := by
  refine ⟨of_decide_eq_true (by with_unfolding_all rfl), ?_, ?_,
    by with_unfolding_all rfl, by with_unfolding_all rfl, by norm_num⟩
  · intro v
    unfold cexH3
    split_ifs <;> norm_num
  · exact admissible_of_potential cexG3 (of_decide_eq_true (by with_unfolding_all rfl))
      cexPhi3 cexH3 3
      (of_decide_eq_true (by with_unfolding_all rfl)) (by norm_num [cexPhi3])
      (of_decide_eq_true (by with_unfolding_all rfl))

/-- C3 amended: the exploration counts of A* and of UCS need not compare,
but both are bounded by the number of graph nodes, since each node is
settled at most once. -/
theorem C3_counts_amended (gr : Graph) (h : Nat → ℚ) (hwf : WellFormed gr)
    (s t : Nat) (hs : s < gr.n) :
    (astarRun gr h s t).2 ≤ gr.n ∧ (ucsRun gr s t).2 ≤ gr.n :=
  ⟨runSearch_count hwf lawful_stratBest hs, runSearch_count hwf lawful_stratBest hs⟩

/-- C3 witness: the count bounds on the demonstration graph. -/
theorem C3_counts_amended_witness :
    (astarRun demoG (heurEuclid demoPF 1) 0 1).2 ≤ demoG.n ∧
    (ucsRun demoG 0 1).2 ≤ demoG.n :=
  C3_counts_amended demoG (heurEuclid demoPF 1) (by decide) 0 1 (by decide)

/-- C4 counterexample: the plain `A*` selector — the selectbox default,
and the value the assistant passes to `find_path` — is accepted by
`findPath` although it is not among the six values the claim names. -/
theorem C4_counterexample :
    "A*" ∈ algorithmOptions ∧ "A*" ∉ claimSelectors ∧
    findPath demoPF "Library" "Food Court" "A*" =
      Except.ok ⟨some [0, 1], ⟨7, walkTime 7, 2, "Library", "Food Court"⟩⟩ := by
  exact ⟨by decide, by decide, by with_unfolding_all rfl⟩

/-- C4 amended: with both location names resolvable, `findPath` succeeds
exactly on the seven selectbox options — the six named values plus the
plain `A*` default. -/
theorem C4_selectors_amended (pf : Pathfinder) (a b sel : String) (sN tN : Nat)
    (ha : resolve pf a = Except.ok sN) (hb : resolve pf b = Except.ok tN) :
    (∃ r, findPath pf a b sel = Except.ok r) ↔ sel ∈ algorithmOptions := by
  unfold findPath
  rw [ha, hb]
  dsimp only
  constructor
  · intro hr
    obtain ⟨r, hr⟩ := hr
    cases h3 : runAlgorithm pf sel sN tN with
    | none => rw [h3] at hr; exact Except.noConfusion hr
    | some res =>
      have : (runAlgorithm pf sel sN tN).isSome = true := by rw [h3]; rfl
      exact (runAlgorithm_isSome_iff pf sel sN tN).mp this
  · intro hmem
    have hsome := (runAlgorithm_isSome_iff pf sel sN tN).mpr hmem
    obtain ⟨res, hres⟩ := Option.isSome_iff_exists.mp hsome
    rw [hres]
    obtain ⟨o, cnt⟩ := res
    cases o with
    | none => exact ⟨_, rfl⟩
    | some pc =>
      obtain ⟨pp, c⟩ := pc
      exact ⟨_, rfl⟩

/-- C4 witness: the amended acceptance equivalence at a concrete selector
and concrete locations. -/
theorem C4_selectors_amended_witness :
    (∃ r, findPath demoPF "Library" "Food Court" "UCS" = Except.ok r) ↔
      "UCS" ∈ algorithmOptions :=
  C4_selectors_amended demoPF "Library" "Food Court" "UCS" 0 1
    (by with_unfolding_all rfl) (by with_unfolding_all rfl)

/-- C5: every heuristic comparison row reports an efficiency score equal
to its average distance divided by its average nodes explored, and the
row the app reports as best is one attaining the maximal score. -/
theorem C5_efficiency (pf : Pathfinder) (samples : List (Nat × Nat)) :
    (∀ row ∈ compareHeuristics pf samples,
      row.efficiency = row.avgDistance / row.avgNodes) ∧
    (∀ r0, bestEfficiency (compareHeuristics pf samples) = some r0 →
      r0 ∈ compareHeuristics pf samples ∧
      ∀ row ∈ compareHeuristics pf samples, row.efficiency ≤ r0.efficiency) := by
  constructor
  · intro row hrow
    simp only [compareHeuristics, List.mem_cons, List.not_mem_nil, or_false] at hrow
    rcases hrow with h | h | h <;> rw [h] <;> rfl
  · intro r0 h0
    have hm := bestEfficiency_max
      [mkHeuristicRow pf "Manhattan" (fun g2 => heurManhattan pf g2) samples,
       mkHeuristicRow pf "Combined" (fun g2 => heurCombined pf g2) samples]
      (mkHeuristicRow pf "Euclidean" (fun g2 => heurEuclid pf g2) samples)
    simp only [compareHeuristics, bestEfficiency] at h0
    have hr0 := Option.some.inj h0
    rw [← hr0]
    exact ⟨hm.1, hm.2⟩

/-- C5 witness: the efficiency relation on a concrete comparison run. -/
theorem C5_efficiency_witness :
    (∀ row ∈ compareHeuristics demoPF [(0, 1)],
      row.efficiency = row.avgDistance / row.avgNodes) ∧
    (∀ r0, bestEfficiency (compareHeuristics demoPF [(0, 1)]) = some r0 →
      r0 ∈ compareHeuristics demoPF [(0, 1)] ∧
      ∀ row ∈ compareHeuristics demoPF [(0, 1)], row.efficiency ≤ r0.efficiency) :=
  C5_efficiency demoPF [(0, 1)]

/-- C6: routing a known location to itself returns, for every valid
selector, the single-node route with zero distance, zero time, and one
node explored. -/
theorem C6_selfpath (pf : Pathfinder) (name sel : String) (c : Coord)
    (hname : poiLookup pf.pois name = some c) (hsel : sel ∈ algorithmOptions) :
    findPath pf name name sel =
      Except.ok ⟨some [nearestNode pf c], ⟨0, 0, 1, name, name⟩⟩ := by
  have hres : resolve pf name = Except.ok (nearestNode pf c) := by
    unfold resolve
    rw [hname]
  unfold findPath
  rw [hres]
  dsimp only
  have hsome := (runAlgorithm_isSome_iff pf sel (nearestNode pf c) (nearestNode pf c)).mpr hsel
  obtain ⟨res, hres2⟩ := Option.isSome_iff_exists.mp hsome
  obtain ⟨hh, st, hlaw, hrun⟩ := runAlgorithm_isRun hres2
  have hres3 : runAlgorithm pf sel (nearestNode pf c) (nearestNode pf c) =
      some (some ([nearestNode pf c], 0), 1) := by
    rw [hres2, hrun, runSearch_self hlaw]
  rw [hres3]
  dsimp only
  norm_num [walkTime]

/-- C6 witness: the self-route on the demonstration pathfinder. -/
theorem C6_selfpath_witness :
    findPath demoPF "Library" "Library" "UCS" =
      Except.ok ⟨some [nearestNode demoPF (0, 0)], ⟨0, 0, 1, "Library", "Library"⟩⟩ :=
  C6_selfpath demoPF "Library" "UCS" (0, 0) (by with_unfolding_all rfl) (by decide)

/-- C7: whenever `findPath` returns a route, the sum of the adjacency
weights along the route equals the distance reported in the metrics
exactly (weights are exact rationals in the model). -/
theorem C7_route_distance (pf : Pathfinder) (hwf : WellFormed pf.graph)
    (hn : 0 < pf.graph.n) (a b sel : String) (r : FindResult) (p : List Nat)
    (h : findPath pf a b sel = Except.ok r) (hroute : r.route = some p) :
    routeCost pf.graph p = some r.metrics.distance := by
  unfold findPath at h
  cases h1 : resolve pf a with
  | error e => rw [h1] at h; exact Except.noConfusion h
  | ok sN =>
    rw [h1] at h
    cases h2 : resolve pf b with
    | error e => rw [h2] at h; exact Except.noConfusion h
    | ok tN =>
      rw [h2] at h
      dsimp only at h
      cases h3 : runAlgorithm pf sel sN tN with
      | none => rw [h3] at h; exact Except.noConfusion h
      | some res =>
        rw [h3] at h
        obtain ⟨o, cnt⟩ := res
        cases o with
        | none =>
          dsimp only at h
          have hr := Except.ok.inj h
          rw [← hr] at hroute
          simp at hroute
        | some pc =>
          obtain ⟨pp, c⟩ := pc
          dsimp only at h
          have hr := Except.ok.inj h
          rw [← hr] at hroute
          simp at hroute
          obtain ⟨hh2, st, hlaw, hrun⟩ := runAlgorithm_isRun h3
          have hsN : sN < pf.graph.n := resolve_lt h1 hn
          have hv := runSearch_valid hwf hlaw hsN hrun.symm
          rw [← hr]
          dsimp only
          rw [← hroute]
          exact hv.2.2

/-- C7 witness: the route cost identity on a concrete returned route. -/
theorem C7_route_distance_witness :
    routeCost demoPF.graph [0, 1] = some (7 : ℚ) := by
  have h := C7_route_distance demoPF (by decide) (by decide) "Library" "Food Court" "UCS"
    ⟨some [0, 1], ⟨7, walkTime 7, 2, "Library", "Food Court"⟩⟩ [0, 1]
    (by with_unfolding_all rfl) rfl
  simpa using h

/-- C8: `locationInfo` fails with LocationNotFoundError exactly when the
name is absent from the POI registry, and calls on a known name always
return one and the same record. -/
theorem C8_locationInfo (pf : Pathfinder) (name : String) :
    (getLocationInfo pf name = Except.error "LocationNotFoundError" ↔
      name ∉ pf.pois.map Prod.fst) ∧
    ∀ i1 i2, getLocationInfo pf name = Except.ok i1 →
      getLocationInfo pf name = Except.ok i2 → i1 = i2 := by
  constructor
  · unfold getLocationInfo
    cases hl : poiLookup pf.pois name with
    | none =>
      simp only
      constructor
      · intro _; exact (poiLookup_none_iff pf.pois name).mp hl
      · intro _; trivial
    | some c =>
      simp only
      constructor
      · intro hcon; exact Except.noConfusion hcon
      · intro hmem
        exact absurd (poiLookup_mem hl) hmem
  · intro i1 i2 h1 h2
    rw [h1] at h2
    exact Except.ok.inj h2

/-- C8 witness: concrete unknown and known names on the demonstration
pathfinder. -/
theorem C8_locationInfo_witness :
    getLocationInfo demoPF "Gym" = Except.error "LocationNotFoundError" ∧
    ∀ i1 i2, getLocationInfo demoPF "Library" = Except.ok i1 →
      getLocationInfo demoPF "Library" = Except.ok i2 → i1 = i2 :=
  ⟨(C8_locationInfo demoPF "Gym").1.mpr (by decide),
   (C8_locationInfo demoPF "Library").2⟩

/-- C9: `process_query` is total at its interface — whatever the model
client, the JSON extraction, and `find_path` do (including raising), it
returns a string; raises are converted to the apology text by the
catch-all. -/
theorem C9_processQuery_total (env : PyEnv) (query : String)
    (pois : List (String × Coord)) :
    ∃ s, processQuery env query pois = Except.ok s := by
  unfold processQuery
  cases hb : processQueryBody env query pois with
  | ok s => exact ⟨s, rfl⟩
  | error e => exact ⟨_, rfl⟩

/-- C10: `_format_location_list` ignores its `pois` argument — the
location text shown to the user is the same fixed string for every
registry. -/
theorem C10_formatLocationList_const (p q : List (String × Coord)) :
    formatLocationList p = formatLocationList q := rfl

end CampusNavi
